import Mathlib

/-!
Verification development for the `mark` terminal markdown reader/editor.

The Rust sources (`src/app.rs`, `src/markdown.rs`) are shallowly embedded
below: rope text is a `List Char` with ropey's line/char conversions,
editor state is an explicit record, and the markdown wrap/search/table
functions are translated directly from `src/markdown.rs`.
-/

set_option maxHeartbeats 1000000

namespace Mark

/-! ## Rope text model (ropey semantics over `List Char`)

A rope's content is the list of its Unicode scalar values.  `lenLines`
counts newline characters plus one (ropey counts the empty segment after a
trailing newline as a line), `charToLine c` is the number of newlines among
the first `c` chars, and `lineToChar l` is the char index where line `l`
starts (`len_chars` when `l` is past the newlines, as in ropey).
-/

def countNl : List Char → Nat
  | [] => 0
  | c :: rest => (if c = '\n' then 1 else 0) + countNl rest

def lenLines (t : List Char) : Nat := countNl t + 1

def charToLine (t : List Char) (c : Nat) : Nat := countNl (t.take c)

def lineToChar : List Char → Nat → Nat
  | _, 0 => 0
  | [], _ + 1 => 0
  | c :: rest, l + 1 =>
    if c = '\n' then 1 + lineToChar rest l else 1 + lineToChar rest (l + 1)

/-- Models `char::is_whitespace` from Rust.  Exact on the ASCII range
(tab, LF, VT, FF, CR, space); the non-ASCII members of the Unicode
White_Space class are not enumerated and no claim depends on them. -/
def isWsChar (c : Char) : Bool :=
  (9 ≤ c.toNat ∧ c.toNat ≤ 13) ∨ c.toNat = 32

/-- `str::trim_start`. -/
def trimStartWs (l : List Char) : List Char :=
  l.dropWhile isWsChar

/-- `str::trim_end`. -/
def trimEndWs (l : List Char) : List Char :=
  (l.reverse.dropWhile isWsChar).reverse

/-- `str::trim`. -/
def trimWs (l : List Char) : List Char :=
  trimEndWs (trimStartWs l)

/-! ## Editor state (`App` in `src/app.rs`)

Only the fields read or written by the embedded operations are carried.
The derived render caches (`parsed`, `rendered`, `editor_lines`) are not
part of the state; the flags guarding them (`render_dirty`,
`editor_cache_dirty`, `render_cursor_line`) are.
-/

structure Register where
  text : List Char
  linewise : Bool
deriving DecidableEq, Repr

inductive Mode
  | Normal
  | SearchInput
  | ThemePicker
  | Edit
  | Insert
  | VisualChar
  | VisualLine
  | CommandInput
deriving DecidableEq, Repr

inductive PendingOp
  | Delete
  | Change
  | Yank
deriving DecidableEq, Repr

inductive LastChange
  | Insert (s : List Char)
  | DeleteChars (n : Nat)
  | DeleteLines (n : Nat)
  | Paste (text : List Char) (linewise : Bool)
  | ReplaceChar (c : Char)
  | ChangeLines (insert : List Char) (count : Nat)
deriving DecidableEq, Repr

structure AppSt where
  rope : List Char
  cursorChar : Nat
  undoStack : List (List Char)
  redoStack : List (List Char)
  registers : Char → Option Register
  pendingRegister : Option Char
  registerWaiting : Bool
  replacePending : Bool
  pendingOp : Option PendingOp
  count : Option Nat
  lastChange : Option LastChange
  dirty : Bool
  source : List Char
  mode : Mode
  status : Option String
  renderDirty : Bool
  editorCacheDirty : Bool
  renderCursorLine : Option Nat
  visualAnchor : Option Nat
  insertRecord : Option (List Char)
  pendingChangeLines : Option Nat
  preferredCol : Option Nat
  scroll : Nat
  editScroll : Nat
  commandInput : List Char

/-- The state `App::new` produces for a freshly loaded document `t` (cursor
then placed at `cursor`): empty stacks, clean buffer, `Edit` mode, the
unnamed register present and empty. -/
def initSt (t : List Char) (cursor : Nat) : AppSt where
  rope := t
  cursorChar := cursor
  undoStack := []
  redoStack := []
  registers := fun c => if c = '\"' then some ⟨[], false⟩ else none
  pendingRegister := none
  registerWaiting := false
  replacePending := false
  pendingOp := none
  count := none
  lastChange := none
  dirty := false
  source := t
  mode := Mode.Edit
  status := some "NORMAL"
  renderDirty := false
  editorCacheDirty := true
  renderCursorLine := none
  visualAnchor := none
  insertRecord := none
  pendingChangeLines := none
  preferredCol := none
  scroll := 0
  editScroll := 0
  commandInput := []

/-- `App::mark_render_dirty`. -/
def markRenderDirty (s : AppSt) : AppSt :=
  { s with renderDirty := true, editorCacheDirty := true }

/-- `App::update_dirty`: dirty is recomputed as rope content differing from
the last-saved content. -/
def updateDirty (s : AppSt) : AppSt :=
  { s with dirty := s.rope != s.source }

/-- `App::push_undo`: push a pre-image snapshot and clear the redo stack. -/
def pushUndo (s : AppSt) : AppSt :=
  { s with undoStack := s.rope :: s.undoStack, redoStack := [] }

/-- `App::undo`. -/
def undo (s : AppSt) : AppSt :=
  match s.undoStack with
  | [] => s
  | prev :: rest =>
    let s1 := { s with undoStack := rest, redoStack := s.rope :: s.redoStack, rope := prev }
    let s2 := { s1 with cursorChar := min s1.cursorChar s1.rope.length }
    updateDirty (markRenderDirty s2)

/-- `App::redo`. -/
def redo (s : AppSt) : AppSt :=
  match s.redoStack with
  | [] => s
  | next :: rest =>
    let s1 := { s with redoStack := rest, undoStack := s.rope :: s.undoStack, rope := next }
    let s2 := { s1 with cursorChar := min s1.cursorChar s1.rope.length }
    updateDirty (markRenderDirty s2)

/-- The common shape of every mutating primitive in `src/app.rs`
(`insert_char`, `delete_chars`, `delete_lines`, `paste_after`,
`replace_char`, `open_line_below`, ...): `push_undo` first, then replace
the rope content, then mark render state dirty and set the dirty flag. -/
def applyEdit (f : List Char → List Char) (s : AppSt) : AppSt :=
  let s1 := pushUndo s
  { s1 with rope := f s1.rope, renderDirty := true, editorCacheDirty := true, dirty := true }

/-- `App::consume_active_register`. -/
def consumeActiveRegister (s : AppSt) : Char × AppSt :=
  match s.pendingRegister with
  | some c => (c, { s with pendingRegister := none })
  | none => ('\"', s)

/-- Pointwise update of the register map (`HashMap::insert`). -/
def regInsert (m : Char → Option Register) (k : Char) (v : Register) : Char → Option Register :=
  fun c => if c = k then some v else m c

/-- `App::set_register`. -/
def setRegister (text : List Char) (linewise isYank : Bool) (s : AppSt) : AppSt :=
  let reg : Register := ⟨text, linewise⟩
  let p := consumeActiveRegister s
  let s1 := p.2
  let m1 := regInsert s1.registers p.1 reg
  let m2 := regInsert m1 '\"' reg
  let m3 := if isYank then regInsert m2 '0' reg else m2
  { s1 with registers := m3 }

/-- `App::line_range`: char span of `count` lines starting at `startLine`. -/
def lineRange (s : AppSt) (startLine count : Nat) : Nat × Nat :=
  let start := lineToChar s.rope startLine
  let endLine := min (startLine + count) (lenLines s.rope)
  let e := if lenLines s.rope ≤ endLine then s.rope.length else lineToChar s.rope endLine
  (start, e)

/-- `App::delete_lines` (the `dd` primitive). -/
def deleteLines (count : Nat) (s : AppSt) : AppSt :=
  let line := charToLine s.rope s.cursorChar
  let cnt := max count 1
  let pr := lineRange s line cnt
  if pr.1 = pr.2 then s
  else
    let s1 := pushUndo s
    let text := (s1.rope.drop pr.1).take (pr.2 - pr.1)
    let s2 := setRegister text true false s1
    let newRope := s2.rope.take pr.1 ++ s2.rope.drop pr.2
    let newCursor := lineToChar newRope (min line (lenLines newRope - 1))
    { s2 with rope := newRope, cursorChar := newCursor,
              lastChange := some (LastChange.DeleteLines cnt),
              renderDirty := true, editorCacheDirty := true, dirty := true }

/-! ## Normal-mode count/digit protocol (`handle_normal_mode`) -/

/-- `App::push_count`. -/
def pushCount (digit : Nat) (s : AppSt) : AppSt :=
  { s with count := some (s.count.getD 0 * 10 + digit) }

/-- `App::take_count`. -/
def takeCount (s : AppSt) : Nat × AppSt :=
  (s.count.getD 1, { s with count := none })

/-- `App::move_cursor_line_start`. -/
def moveCursorLineStart (s : AppSt) : AppSt :=
  let line := charToLine s.rope s.cursorChar
  { s with cursorChar := lineToChar s.rope line, preferredCol := none }

/-- `App::ensure_cursor_visible`. -/
def ensureCursorVisible (height : Nat) (s : AppSt) : AppSt :=
  let line := charToLine s.rope s.cursorChar
  if line < s.editScroll then { s with editScroll := line }
  else if s.editScroll + height ≤ line then { s with editScroll := line - (height - 1) }
  else s

/-- The digit fragment of `App::handle_normal_mode` (reached when no
single-char replace, register name, or control chord is pending): a `0`
with no count pending moves to line start, any other digit accumulates
into the pending count. -/
def handleNormalDigit (height digit : Nat) (s : AppSt) : AppSt :=
  if digit = 0 ∧ s.count = none then ensureCursorVisible height (moveCursorLineStart s)
  else pushCount digit s

/-- The `q` key arm of `App::handle_normal_mode`: the returned flag is the
handler's boolean result, `true` meaning the main loop breaks (process
exit). -/
def normalModeQuitKey (s : AppSt) : AppSt × Bool :=
  if s.dirty then
    ({ s with status := some "No write since last change (use :q! to discard)" }, false)
  else (s, true)

/-! ## Command execution (`execute_command` and friends) -/

/-- `App::clear_pending`. -/
def clearPending (s : AppSt) : AppSt :=
  { s with pendingOp := none, count := none, pendingRegister := none,
           registerWaiting := false, replacePending := false }

/-- `App::exit_edit_mode`: the accepted quit transition back to the `Normal`
(view) mode.  `reparse_with_theme` only rebuilds the derived render cache,
which this state embedding does not carry. -/
def exitEditMode (s : AppSt) : AppSt :=
  let s1 := { s with mode := Mode.Normal, visualAnchor := none,
                     insertRecord := none, pendingChangeLines := none }
  let s2 := clearPending s1
  let s3 := { s2 with source := s2.rope }
  let s4 := { s3 with renderDirty := false, scroll := s3.editScroll }
  { s4 with status := some (if s4.dirty then "Modified" else "View") }

/-- `App::discard_changes`. -/
def discardChanges (s : AppSt) : AppSt :=
  let rope := s.source
  { s with rope := rope, cursorChar := min s.cursorChar rope.length,
           renderDirty := true, editorCacheDirty := true, dirty := false }

/-- `App::save_buffer`, success path.  The `fs::write` failure branch (an
external-I/O outcome) leaves everything but the status untouched and is not
modelled; `render_cursor_line` is cleared and `suppress_reload_until` (wall
clock, unmodelled) is armed. -/
def saveBuffer (s : AppSt) : AppSt :=
  { s with source := s.rope, renderCursorLine := none, dirty := false,
           status := some "Saved" }

/-- `App::execute_command` (the command text as its char list). -/
def executeCommand (command : List Char) (s : AppSt) : AppSt :=
  let cmd := trimWs command
  if cmd = [] then { s with mode := Mode.Edit }
  else if cmd = ['w'] ∨ cmd = ['w', 'r', 'i', 't', 'e'] ∨ cmd = ['w', '!'] then
    { saveBuffer s with mode := Mode.Edit }
  else if cmd = ['w', 'q'] ∨ cmd = ['x'] then
    let s1 := saveBuffer s
    if s1.dirty then { s1 with mode := Mode.Edit } else exitEditMode s1
  else if cmd = ['q'] ∨ cmd = ['q', 'u', 'i', 't'] then
    if s.dirty then
      { s with status := some "No write since last change (add ! to override)",
               mode := Mode.Edit }
    else exitEditMode s
  else if cmd = ['q', '!'] ∨ cmd = ['q', 'u', 'i', 't', '!'] then
    exitEditMode (discardChanges s)
  else
    { s with status := some ("Not an editor command: " ++ String.mk cmd),
             mode := Mode.Edit }

/-- Key events as `handle_command_input` distinguishes them. -/
inductive CKey
  | esc
  | enter
  | backspace
  | char (c : Char) (ctrl : Bool)
  | other
deriving DecidableEq, Repr

/-- `App::sync_render_from_rope`.  Re-parsing and the scroll clamp act on
the derived rendered document, which this state embedding does not carry;
the core fields it changes are `renderDirty` and `renderCursorLine`. -/
def syncRenderFromRope (s : AppSt) : AppSt :=
  if s.renderDirty then { s with renderCursorLine := none, renderDirty := false }
  else s

/-- `App::handle_command_input`.  The boolean result is the handler's return
value: `true` would break the main loop (process exit); this handler always
returns `false`. -/
def handleCommandInput (k : CKey) (s : AppSt) : AppSt × Bool :=
  let s1 :=
    match k with
    | CKey.esc => { s with mode := Mode.Edit, commandInput := [] }
    | CKey.enter =>
      let command := trimWs s.commandInput
      executeCommand command { s with commandInput := [] }
    | CKey.backspace => { s with commandInput := s.commandInput.dropLast }
    | CKey.char c ctrl =>
      if ctrl then s else { s with commandInput := s.commandInput ++ [c] }
    | CKey.other => s
  let s2 :=
    if s1.mode = Mode.Edit ∨ s1.mode = Mode.Normal then syncRenderFromRope s1 else s1
  (s2, false)

/-! ## Markdown rendering model (`src/markdown.rs`)

Styled spans.  `MColor` models ratatui's `Color` with `Reset` kept distinct
and every concrete palette color abstracted as an index; `MStyle` carries
the foreground/background options (the modifier bitflags are observed by
none of the embedded functions and are omitted). -/

inductive MColor
  | Reset
  | Palette (n : Nat)
deriving DecidableEq, Repr

structure MStyle where
  fg : Option MColor
  bg : Option MColor
deriving DecidableEq, Repr

/-- `Style::default()`. -/
def defaultStyle : MStyle := ⟨none, none⟩

/-- `ratatui::style::Style::patch`: fields of the argument win when set. -/
def MStyle.patch (a b : MStyle) : MStyle :=
  { fg := match b.fg with | some c => some c | none => a.fg,
    bg := match b.bg with | some c => some c | none => a.bg }

structure MSpan where
  content : List Char
  style : MStyle
deriving DecidableEq, Repr

structure MLine where
  spans : List MSpan
deriving DecidableEq, Repr

/-- `Line::from("")`: a line holding one empty unstyled span. -/
def emptyMLine : MLine := ⟨[⟨[], defaultStyle⟩]⟩

/-- `line_to_plain`: concatenation of the span texts. -/
def linePlain (l : MLine) : List Char :=
  l.spans.flatMap MSpan.content

/-- Models the `unicode-width` collaborator (`UnicodeWidthChar::width`
with `unwrap_or(0)`): 0 for control characters, 1 otherwise.  Exact on the
ASCII range; double-width and zero-width non-ASCII classes are not
enumerated and no claim depends on them. -/
def charWidth (c : Char) : Nat :=
  if c.toNat < 32 then 0 else if c.toNat = 127 then 0 else 1

/-- `UnicodeWidthStr::width`. -/
def strWidth (l : List Char) : Nat :=
  (l.map charWidth).sum

/-- `spans_width`. -/
def spansWidth (spans : List MSpan) : Nat :=
  (spans.map (fun sp => strWidth sp.content)).sum

/-! ### Search (`find_matches`) -/

/-- `str::to_ascii_lowercase`, per scalar value.  UTF-8 bytes of non-ASCII
chars are all ≥ 0x80, so the Rust byte-wise map acts exactly per char. -/
def toAsciiLowerChar (c : Char) : Char :=
  if 65 ≤ c.toNat ∧ c.toNat ≤ 90 then Char.ofNat (c.toNat + 32) else c

def toAsciiLower (l : List Char) : List Char :=
  l.map toAsciiLowerChar

/-- `str::find` on `hay[cursor..]`, as an absolute index: the least
`i ≥ cursor` where `needle` occurs in full. -/
def findFrom (hay needle : List Char) (cursor : Nat) : Option Nat :=
  (List.range (hay.length + 1)).find?
    (fun i => decide (cursor ≤ i) && needle.isPrefixOf (hay.drop i))

/-- One search hit: rendered line index and start/end offsets in that
line (`stop` is Rust's `end`, a Lean keyword). -/
structure SMatch where
  line : Nat
  start : Nat
  stop : Nat
deriving DecidableEq, Repr

/-- The `while cursor < hay.len()` scan loop of `find_matches`.  Each step
advances the cursor past the match, so with a non-empty needle at most
`hay.length + 1` iterations can run; the fuel argument is initialised to
that bound and never exhausts. -/
def scanLine (hay needle : List Char) : Nat → Nat → List (Nat × Nat)
  | 0, _ => []
  | fuel + 1, cursor =>
    if cursor < hay.length then
      match findFrom hay needle cursor with
      | some start =>
        (start, start + needle.length) :: scanLine hay needle fuel (start + needle.length)
      | none => []
    else []

/-- `find_matches`: left-to-right non-overlapping substring scan per plain
line, with optional ASCII case folding of needle and haystack. -/
def findMatches (lines : List (List Char)) (query : List Char) (caseSensitive : Bool) :
    List SMatch :=
  let needle := if caseSensitive then query else toAsciiLower query
  if needle = [] then []
  else
    lines.enum.flatMap fun p =>
      let hay := if caseSensitive then p.2 else toAsciiLower p.2
      (scanLine hay needle (hay.length + 1) 0).map fun m => ⟨p.1, m.1, m.2⟩

/-! ### Word wrap (`tokenize_line`, `trim_trailing_ws`, `line_uniform_bg`,
`wrap_line`) -/

structure WToken where
  text : List Char
  style : MStyle
  isWhitespace : Bool
deriving DecidableEq, Repr

/-- The per-span run splitter inside `tokenize_line`: `buf` accumulates the
current run, `cw` is the `current_ws` flag. -/
def spanTokensGo (style : MStyle) : List Char → List Char → Option Bool → List WToken
  | [], buf, cw => if buf = [] then [] else [⟨buf, style, cw.getD false⟩]
  | ch :: rest, buf, cw =>
    let isWs := isWsChar ch
    let cw1 := match cw with | none => some isWs | some b => some b
    if cw1 = some isWs then spanTokensGo style rest (buf ++ [ch]) cw1
    else ⟨buf, style, cw1.getD false⟩ :: spanTokensGo style rest [ch] (some isWs)

/-- `tokenize_line`. -/
def tokenizeLine (line : MLine) : List WToken :=
  line.spans.flatMap fun sp =>
    if sp.content = [] then [] else spanTokensGo sp.style sp.content [] none

/-- `str::trim_end_matches(' ')`. -/
def trimCharsEndSpaces (l : List Char) : List Char :=
  (l.reverse.dropWhile (fun c => c = ' ')).reverse

/-- `trim_trailing_ws`, working on the reversed span list: pop all-space
spans, trim the first span that survives. -/
def trimTrailingWsRev : List MSpan → List MSpan
  | [] => []
  | sp :: rest =>
    let trimmed := trimCharsEndSpaces sp.content
    if trimmed.length = sp.content.length then sp :: rest
    else if trimmed = [] then trimTrailingWsRev rest
    else ⟨trimmed, sp.style⟩ :: rest

def trimTrailingWs (spans : List MSpan) : List MSpan :=
  (trimTrailingWsRev spans.reverse).reverse

/-- `line_uniform_bg`, with `acc` the running `bg` accumulator. -/
def lineUniformBgGo : Option MColor → List MSpan → Option MColor
  | acc, [] => acc
  | acc, sp :: rest =>
    if sp.content = [] then lineUniformBgGo acc rest
    else
      match sp.style.bg with
      | none => none
      | some c =>
        if c = MColor.Reset then none
        else
          match acc with
          | some e => if e = c then lineUniformBgGo acc rest else none
          | none => lineUniformBgGo (some c) rest

def lineUniformBg (line : MLine) : Option MColor :=
  lineUniformBgGo none line.spans

/-- The `push_current` closure of `wrap_line`: the line a flush of
`current` emits.  `fillOpt` is the pair of `fill_style` and `fill_width`
when both are present. -/
def pushCurrentLine (fillOpt : Option (MStyle × Nat)) (current : List MSpan) : MLine :=
  if current = [] then
    match fillOpt with
    | some (style, fw) => ⟨[⟨List.replicate fw ' ', style⟩]⟩
    | none => emptyMLine
  else
    let trimmed := trimTrailingWs current
    match fillOpt with
    | some (style, fw) =>
      let wNow := spansWidth trimmed
      if wNow < fw then ⟨trimmed ++ [⟨List.replicate (fw - wNow) ' ', style⟩]⟩
      else ⟨trimmed⟩
    | none => ⟨trimmed⟩

/-- The per-char hard-split loop for an over-wide token: returns the chunk
lines pushed directly to `out`, and the final `buf` with its width. -/
def hardSplitGo (width : Nat) (style : MStyle) :
    List Char → List Char → Nat → List MLine × List Char × Nat
  | [], buf, bufW => ([], buf, bufW)
  | ch :: rest, buf, bufW =>
    let cwd := charWidth ch
    if width < bufW + cwd ∧ buf ≠ [] then
      let r := hardSplitGo width style rest [ch] cwd
      (⟨[⟨buf, style⟩]⟩ :: r.1, r.2)
    else hardSplitGo width style rest (buf ++ [ch]) (bufW + cwd)

/-- The token loop of `wrap_line`, threading `(out, current, current_width)`. -/
def wrapFold (fillOpt : Option (MStyle × Nat)) (width : Nat) :
    List WToken → List MLine → List MSpan → Nat → List MLine × List MSpan × Nat
  | [], out, current, cw => (out, current, cw)
  | tok :: rest, out, current, cw =>
    if tok.isWhitespace then
      if current = [] then wrapFold fillOpt width rest out current cw
      else
        let w := strWidth tok.text
        if width < cw + w then
          wrapFold fillOpt width rest (out ++ [pushCurrentLine fillOpt current]) [] 0
        else wrapFold fillOpt width rest out (current ++ [⟨tok.text, tok.style⟩]) (cw + w)
    else
      let tw := strWidth tok.text
      if tw ≤ width then
        if width < cw + tw ∧ current ≠ [] then
          wrapFold fillOpt width rest (out ++ [pushCurrentLine fillOpt current])
            [⟨tok.text, tok.style⟩] tw
        else wrapFold fillOpt width rest out (current ++ [⟨tok.text, tok.style⟩]) (cw + tw)
      else
        let p := if current = [] then (out, cw)
                 else (out ++ [pushCurrentLine fillOpt current], 0)
        let hs := hardSplitGo width tok.style tok.text [] 0
        let cc := if hs.2.1 = [] then (([] : List MSpan), p.2)
                  else ([(⟨hs.2.1, tok.style⟩ : MSpan)], hs.2.2)
        wrapFold fillOpt width rest (p.1 ++ hs.1) cc.1 cc.2

/-- The token phase of `wrap_line`, fill configuration given explicitly. -/
def wrapWithFill (fillOpt : Option (MStyle × Nat)) (width : Nat) (line : MLine) :
    List MLine :=
  let tokens := tokenizeLine line
  if tokens = [] then
    match fillOpt with
    | some (style, fw) => [⟨[⟨List.replicate fw ' ', style⟩]⟩]
    | none => [emptyMLine]
  else
    let res := wrapFold fillOpt width tokens [] [] 0
    res.1 ++ [pushCurrentLine fillOpt res.2.1]

/-- `wrap_line`. -/
def wrapLine (line : MLine) (width : Nat) : List MLine :=
  if width = 0 then [line]
  else
    let fillOpt : Option (MStyle × Nat) :=
      match lineUniformBg line with
      | some bgc => if 500 < width then none else some (⟨none, some bgc⟩, width)
      | none => none
    wrapWithFill fillOpt width line

/-- The render width `refresh_render` passes to `wrap_document`: the pane
width when wrapping is enabled, `u16::MAX` otherwise. -/
def renderWidth (wrapEnabled : Bool) (width : Nat) : Nat :=
  if wrapEnabled then width else 65535

/-! ### Tables (`render_table`) -/

/-- `pulldown_cmark::Alignment`. -/
inductive TAlign
  | None
  | Left
  | Center
  | Right
deriving DecidableEq, Repr

structure TableSpanM where
  text : List Char
  style : MStyle
deriving DecidableEq, Repr

structure TableCellM where
  text : List Char
  spans : List TableSpanM
deriving DecidableEq, Repr

structure TableRowM where
  cells : List TableCellM
  isHeader : Bool
deriving DecidableEq, Repr

/-- `TableBuilder`, restricted to the fields `render_table` reads (the
in-progress `current_*` scratch fields are builder state it never looks
at). -/
structure TableBuilderM where
  alignments : List TAlign
  rows : List TableRowM
  sawHead : Bool

/-- The table-related styles out of `MarkdownStyles`. -/
structure TableStyles where
  base : MStyle
  tableBorder : MStyle
  tableHeader : MStyle

/-- `cell_padding`. -/
def cellPadding (textWidth width : Nat) (align : TAlign) : Nat × Nat :=
  if width ≤ textWidth then (0, 0)
  else
    let pad := width - textWidth
    match align with
    | TAlign.Right => (pad, 0)
    | TAlign.Center => (pad / 2, pad - pad / 2)
    | _ => (0, pad)

/-- `table_border_line`. -/
def tableBorderLine (widths : List Nat) (j0 j1 j2 : Char) (style : MStyle) : MLine :=
  let segs := widths.map fun w => List.replicate (w + 2) '─'
  ⟨[⟨j0 :: List.intercalate [j1] segs ++ [j2], style⟩]⟩

/-- `table_row_line`. -/
def tableRowLine (row : TableRowM) (widths : List Nat) (aligns : List TAlign)
    (cellStyle borderStyle : MStyle) : MLine :=
  let body := (List.range widths.length).flatMap fun idx =>
    let cell := row.cells.get? idx
    let text := match cell with | some c => c.text | none => []
    let align := (aligns.get? idx).getD TAlign.Left
    let tw := strWidth text
    let pads := cellPadding tw ((widths.get? idx).getD 0) align
    [(⟨List.replicate (1 + pads.1) ' ', cellStyle⟩ : MSpan)]
    ++ (match cell with
        | some c => c.spans.map fun f => (⟨f.text, MStyle.patch cellStyle f.style⟩ : MSpan)
        | none => [])
    ++ [⟨List.replicate (1 + pads.2) ' ', cellStyle⟩, ⟨['│'], borderStyle⟩]
  ⟨⟨['│'], borderStyle⟩ :: body⟩

/-- Leading run of rows carrying the header flag (the counting loop with
`break` in `render_table`). -/
def leadingHeaderLen (rows : List TableRowM) : Nat :=
  (rows.takeWhile TableRowM.isHeader).length

/-- `render_table`: produces the raw lines the table contributes. -/
def renderTable (table : TableBuilderM) (styles : TableStyles) : List MLine :=
  if table.rows = [] then []
  else
    let columnCount := ((table.rows.map fun r => r.cells.length).max?).getD 0
    if columnCount = 0 then []
    else
      let widths := (List.range columnCount).map fun idx =>
        (table.rows.map fun r =>
          match r.cells.get? idx with
          | some c => strWidth c.text
          | none => 0).foldr max 0
      let hl := leadingHeaderLen table.rows
      let headerLen := if hl = 0 ∧ table.sawHead ∧ table.rows ≠ [] then 1 else hl
      [tableBorderLine widths '┌' '┬' '┐' styles.tableBorder]
      ++ ((table.rows.take headerLen).map fun r =>
            tableRowLine r widths table.alignments styles.tableHeader styles.tableBorder)
      ++ (if 0 < headerLen ∧ headerLen < table.rows.length then
            [tableBorderLine widths '├' '┼' '┤' styles.tableBorder]
          else [])
      ++ ((table.rows.drop headerLen).map fun r =>
            tableRowLine r widths table.alignments styles.base styles.tableBorder)
      ++ [tableBorderLine widths '└' '┴' '┘' styles.tableBorder]

/-! ## CursorSync (`compute_rendered_cursor_line_col` and helpers) -/

/-- The `loop` of `strip_line_prefix` that peels `>` quote markers.  `s` is
already left-trimmed on entry and each step re-trims, so the loop test
`s.trim_start()` coincides with `s`; each step consumes at least one char,
so fuel `s.length` never exhausts. -/
def stripQuotesGo : Nat → List Char → List Char
  | 0, s => s
  | fuel + 1, s =>
    match s with
    | '>' :: rest => stripQuotesGo fuel (trimStartWs rest)
    | other => other

/-- `strip_list_marker`. -/
def stripListMarker (s : List Char) : Option (List Char) :=
  if ['-', ' '].isPrefixOf s then some (s.drop 2)
  else if ['*', ' '].isPrefixOf s then some (s.drop 2)
  else if ['+', ' '].isPrefixOf s then some (s.drop 2)
  else
    let digits := (s.takeWhile fun c => c.isDigit).length
    if 0 < digits then
      let rest := s.drop digits
      if ['.', ' '].isPrefixOf rest then some (rest.drop 2)
      else if [')', ' '].isPrefixOf rest then some (rest.drop 2)
      else none
    else none

/-- `strip_line_prefix`: drop leading whitespace, empty out code fences,
peel block-quote markers, then either unwrap an ATX heading or strip a
list marker. -/
def stripLinePre (line : List Char) : List Char :=
  let s := trimStartWs line
  let trimmed := trimStartWs s
  if ['`', '`', '`'].isPrefixOf trimmed ∨ ['~', '~', '~'].isPrefixOf trimmed then []
  else
    let s2 := stripQuotesGo s.length s
    let hashCount := (s2.takeWhile fun c => c = '#').length
    if 0 < hashCount ∧ hashCount ≤ 6 then
      let rest := trimEndWs (trimStartWs (s2.drop hashCount))
      trimEndWs ((rest.reverse.dropWhile fun c => c = '#').reverse)
    else
      match stripListMarker s2 with
      | some rest => rest
      | none => s2

/-- `strip_inline_markdown`, on the remaining char list.  Every branch
consumes at least one input char, so fuel `line.length` never exhausts. -/
def stripInlineGo : Nat → List Char → List Char
  | 0, _ => []
  | _ + 1, [] => []
  | fuel + 1, ch :: rest =>
    if ch = '\\' then
      match rest with
      | next :: r2 => next :: stripInlineGo fuel r2
      | [] => []
    else if ch = '`' ∨ ch = '*' ∨ ch = '_' ∨ ch = '~' then stripInlineGo fuel rest
    else if ch = '[' then
      let text := rest.takeWhile fun c => c ≠ ']'
      let after := (rest.dropWhile fun c => c ≠ ']').drop 1
      let after2 :=
        match after with
        | '(' :: r2 => (r2.dropWhile fun c => c ≠ ')').drop 1
        | _ => after
      text ++ stripInlineGo fuel after2
    else if ch = '!' then
      match rest with
      | '[' :: r2 =>
        let text := r2.takeWhile fun c => c ≠ ']'
        let after := (r2.dropWhile fun c => c ≠ ']').drop 1
        let after2 :=
          match after with
          | '(' :: r3 => (r3.dropWhile fun c => c ≠ ')').drop 1
          | _ => after
        text ++ stripInlineGo fuel after2
      | _ => ch :: stripInlineGo fuel rest
    else ch :: stripInlineGo fuel rest

def stripInlineMarkdown (line : List Char) : List Char :=
  stripInlineGo line.length line

/-- `normalize_markdown_line`. -/
def normalizeMarkdownLine (line : List Char) : List Char :=
  let trimmed := (line.reverse.dropWhile fun c => c = '\n' ∨ c = '\r').reverse
  let stripped := stripLinePre trimmed
  let inline := stripInlineMarkdown stripped
  trimWs inline

/-- `normalize_prefix_for_col`. -/
def normalizePrefixCol (line : List Char) (col : Nat) : Nat :=
  let pre := line.take col
  let stripped := stripLinePre pre
  let inline := stripInlineMarkdown stripped
  inline.length

/-- `str::split_whitespace`.  Each step consumes at least one char, so fuel
`l.length + 1` never exhausts. -/
def splitWsGo : Nat → List Char → List (List Char)
  | 0, _ => []
  | fuel + 1, l =>
    let l1 := l.dropWhile isWsChar
    if l1 = [] then []
    else
      let w := l1.takeWhile fun c => !isWsChar c
      w :: splitWsGo fuel (l1.drop w.length)

/-- `build_match_candidates`: the ±8-char window around the cursor column,
the longest whitespace-delimited word (ties resolved to the last, as
`max_by_key` does) when at least 4 chars, the first 24 chars when longer,
and the whole trimmed line — deduplicated keeping first occurrences. -/
def buildMatchCandidates (line : List Char) (cursorCol : Nat) : List (List Char) :=
  let trimmed := trimWs line
  if trimmed = [] then []
  else
    let len := trimmed.length
    let col := min cursorCol len
    let out1 :=
      if 0 < len then
        let start := col - 8
        let e := min (col + 8) len
        let snippet := (trimmed.drop start).take (e - start)
        if trimWs snippet = [] then [] else [snippet]
      else []
    let words := splitWsGo (trimmed.length + 1) trimmed
    let wordOpt := words.foldl
      (fun acc w =>
        match acc with
        | none => some w
        | some b => if b.length ≤ w.length then some w else some b)
      none
    let out2 :=
      match wordOpt with
      | some w => if 4 ≤ w.length then [w] else []
      | none => []
    let out3 := if 24 < len then [trimmed.take 24] else []
    let all := out1 ++ out2 ++ out3 ++ [trimmed]
    all.foldl (fun u c => if c ∈ u then u else u ++ [c]) []

/-- `match_line`: longest candidate occurring in the line, with the column
of its first occurrence. -/
def matchLine (line : List Char) (candidates : List (List Char)) :
    Option (Nat × Option Nat) :=
  let r := candidates.foldl
    (fun (acc : Nat × Option Nat) cand =>
      if cand = [] then acc
      else
        match findFrom line cand 0 with
        | some idx => if acc.1 < cand.length then (cand.length, some idx) else acc
        | none => acc)
    (0, none)
  if 0 < r.1 then some r else none

/-- The index loop inside `find_best_rendered_match`: scan the given
indices, keeping the hit with the least `dist * 1000 - len` score. -/
def scanRangeGo (plainLines : List (List Char)) (cands : List (List Char)) (anchor : Nat) :
    List Nat → Option (Nat × Int × Option Nat) → Option (Nat × Int × Option Nat)
  | [], best => best
  | idx :: rest, best =>
    let best1 :=
      match matchLine ((plainLines.get? idx).getD []) cands with
      | some (len, col) =>
        let dist := if anchor < idx then idx - anchor else anchor - idx
        let score : Int := (dist : Int) * 1000 - (len : Int)
        match best with
        | some b => if score < b.2.1 then some (idx, score, col) else best
        | none => some (idx, score, col)
      | none => best
    scanRangeGo plainLines cands anchor rest best1

/-- `find_best_rendered_match`: a ±200-line window around the anchor,
falling back to the whole document only when the window had no hit. -/
def findBestRenderedMatch (plainLines : List (List Char)) (cands : List (List Char))
    (anchor : Nat) : Option (Nat × Option Nat) :=
  if cands = [] then none
  else
    let total := plainLines.length
    if total = 0 then none
    else
      let anchor1 := min anchor (total - 1)
      let window := 200
      let lo := anchor1 - window
      let hi := min (anchor1 + window + 1) total
      let r1 := scanRangeGo plainLines cands anchor1 (List.range' lo (hi - lo)) none
      match r1 with
      | some b => some (b.1, b.2.2)
      | none =>
        (scanRangeGo plainLines cands anchor1 (List.range' 0 total) none).map
          fun b => (b.1, b.2.2)

/-- `Rope::line(l).to_string()`: the chars of line `l`, terminator
included. -/
def ropeLineText (rope : List Char) (l : Nat) : List Char :=
  (rope.drop (lineToChar rope l)).take (lineToChar rope (l + 1) - lineToChar rope l)

/-- The line extraction at the top of `compute_rendered_cursor_line_col`:
current source line with a trailing `\n` (then `\r`) popped. -/
def currentLineText (rope : List Char) (cursorChar : Nat) : List Char :=
  let srcLine := charToLine rope cursorChar
  let raw := ropeLineText rope srcLine
  let r1 := if raw.getLast? = some '\n' then raw.dropLast else raw
  if r1.getLast? = some '\r' then r1.dropLast else r1

/-- `compute_rendered_cursor_line_col`: the CursorSync forward mapping. -/
def computeRenderedCursorLineCol (plainLines : List (List Char)) (rope : List Char)
    (cursorChar anchor : Nat) : Option (Nat × Nat) :=
  if plainLines = [] then none
  else
    let srcLine := charToLine rope cursorChar
    let srcCol := cursorChar - lineToChar rope srcLine
    let lineStr := currentLineText rope cursorChar
    let normalized := normalizeMarkdownLine lineStr
    let visibleCol := normalizePrefixCol lineStr srcCol
    let anchor1 := min anchor (plainLines.length - 1)
    if trimWs normalized = [] then some (anchor1, 0)
    else
      let candidates := buildMatchCandidates normalized visibleCol
      match findBestRenderedMatch plainLines candidates anchor1 with
      | some (line, matchCol) =>
        let lineLen := ((plainLines.get? line).getD []).length
        some (line, min (matchCol.getD visibleCol) lineLen)
      | none =>
        let fallback := min srcLine (plainLines.length - 1)
        let lineLen := ((plainLines.get? fallback).getD []).length
        some (fallback, min visibleCol lineLen)

/-! ## Concrete example inputs used in the theorems -/

/-- A single unstyled span holding `"The quick brown fox"`. -/
def exFoxLine : MLine :=
  ⟨[⟨['T', 'h', 'e', ' ', 'q', 'u', 'i', 'c', 'k', ' ',
      'b', 'r', 'o', 'w', 'n', ' ', 'f', 'o', 'x'], defaultStyle⟩]⟩

/-- A single unstyled span holding one 8-char token. -/
def exWideLine : MLine :=
  ⟨[⟨['a', 'b', 'c', 'd', 'e', 'f', 'g', 'h'], defaultStyle⟩]⟩

/-- A single unstyled span ending in a tab character. -/
def exTabLine : MLine :=
  ⟨[⟨['a', '\t'], defaultStyle⟩]⟩

/-- The uniform background color used in the padding examples. -/
def exBgStyle : MStyle := ⟨none, some (MColor.Palette 7)⟩

/-- A short line whose single span has a uniform non-Reset background. -/
def exBgLine : MLine :=
  ⟨[⟨['a', 'b'], exBgStyle⟩]⟩

/-- The two rows of the example table `| Key | Action | / | a | Add |`,
with configurable header flags and cell fragment style. -/
def exTableRows (fragSty : MStyle) (h1 h2 : Bool) : List TableRowM :=
  [⟨[⟨['K', 'e', 'y'], [⟨['K', 'e', 'y'], fragSty⟩]⟩,
     ⟨['A', 'c', 't', 'i', 'o', 'n'], [⟨['A', 'c', 't', 'i', 'o', 'n'], fragSty⟩]⟩], h1⟩,
   ⟨[⟨['a'], [⟨['a'], fragSty⟩]⟩,
     ⟨['A', 'd', 'd'], [⟨['A', 'd', 'd'], fragSty⟩]⟩], h2⟩]

/-- The example table builder (a head section was observed). -/
def exTable (fragSty : MStyle) (h1 h2 : Bool) : TableBuilderM :=
  ⟨[TAlign.None, TAlign.None], exTableRows fragSty h1 h2, true⟩

/-! ## Projection helper lemmas -/

theorem pushUndo_rope (s : AppSt) : (pushUndo s).rope = s.rope := rfl

theorem setRegister_rope (text : List Char) (lw y : Bool) (s : AppSt) :
    (setRegister text lw y s).rope = s.rope := by
  unfold setRegister consumeActiveRegister
  cases s.pendingRegister <;> rfl

theorem setRegister_cursorChar (text : List Char) (lw y : Bool) (s : AppSt) :
    (setRegister text lw y s).cursorChar = s.cursorChar := by
  unfold setRegister consumeActiveRegister
  cases s.pendingRegister <;> rfl

theorem ensureCursorVisible_cursorChar (h : Nat) (s : AppSt) :
    (ensureCursorVisible h s).cursorChar = s.cursorChar := by
  simp only [ensureCursorVisible]
  split
  · rfl
  · split <;> rfl

theorem ensureCursorVisible_count (h : Nat) (s : AppSt) :
    (ensureCursorVisible h s).count = s.count := by
  simp only [ensureCursorVisible]
  split
  · rfl
  · split <;> rfl

theorem ensureCursorVisible_rope (h : Nat) (s : AppSt) :
    (ensureCursorVisible h s).rope = s.rope := by
  simp only [ensureCursorVisible]
  split
  · rfl
  · split <;> rfl

/-! ## Claim theorems -/

/-- C1: for any buffer state, a single mutating edit (pre-image snapshot
pushed, rope replaced) followed by `undo` restores the exact prior rope
content; `redo` right after that `undo` restores the post-mutation
content; and a new mutating edit after an `undo` clears the redo stack, so
a subsequent `redo` is a no-op (returns the state unchanged). -/
theorem c1_undo_redo_roundtrip (s : AppSt) (f g : List Char → List Char) :
    (undo (applyEdit f s)).rope = s.rope ∧
    (redo (undo (applyEdit f s))).rope = (applyEdit f s).rope ∧
    redo (applyEdit g (undo (applyEdit f s))) = applyEdit g (undo (applyEdit f s)) := by
  refine ⟨?_, ?_, ?_⟩ <;>
    simp [applyEdit, pushUndo, undo, redo, updateDirty, markRenderDirty]

/-- C3: in normal (Edit) mode with no replace/register/control guard
pending, a digit key behaves as follows — `0` with no pending count moves
the cursor to the start of the current line (leaving the count empty), `0`
with a pending count `n` turns the count into `n * 10`, and a nonzero
digit `d` always accumulates, turning the pending count into
`count * 10 + d`; in the two accumulating cases the cursor stays put. -/
theorem c3_digit_count_protocol (s : AppSt) (height d n : Nat) :
    (s.count = none →
      handleNormalDigit height 0 s = ensureCursorVisible height (moveCursorLineStart s) ∧
      (handleNormalDigit height 0 s).cursorChar =
        lineToChar s.rope (charToLine s.rope s.cursorChar) ∧
      (handleNormalDigit height 0 s).count = none) ∧
    (s.count = some n →
      handleNormalDigit height 0 s = pushCount 0 s ∧
      (handleNormalDigit height 0 s).count = some (n * 10) ∧
      (handleNormalDigit height 0 s).cursorChar = s.cursorChar) ∧
    (d ≠ 0 →
      handleNormalDigit height d s = pushCount d s ∧
      (handleNormalDigit height d s).count = some (s.count.getD 0 * 10 + d) ∧
      (handleNormalDigit height d s).cursorChar = s.cursorChar) := by
  refine ⟨fun h0 => ⟨?_, ?_, ?_⟩, fun hn => ⟨?_, ?_, ?_⟩, fun hd => ⟨?_, ?_, ?_⟩⟩
  · simp [handleNormalDigit, h0]
  · simp [handleNormalDigit, h0, ensureCursorVisible_cursorChar, moveCursorLineStart]
  · rw [handleNormalDigit, if_pos ⟨rfl, h0⟩, ensureCursorVisible_count]
    simp [moveCursorLineStart, h0]
  · simp [handleNormalDigit, hn]
  · simp [handleNormalDigit, hn, pushCount]
  · simp [handleNormalDigit, hn, pushCount]
  · simp [handleNormalDigit, hd]
  · simp [handleNormalDigit, hd, pushCount]
  · simp [handleNormalDigit, hd, pushCount]

/-- Witness for C3 at a concrete state: `0` first moves to line start on
`"ab\ncd"` with the cursor at char 4 (line 1, col 1), and after a pending
`1` the `0` key makes the count `10`. -/
theorem c3_digit_count_protocol_witness :
    (handleNormalDigit 5 0 (initSt ['a', 'b', '\n', 'c', 'd'] 4)).cursorChar = 3 ∧
    (handleNormalDigit 5 0
      { initSt ['a', 'b', '\n', 'c', 'd'] 4 with count := some 1 }).count = some 10 := by
  constructor
  · have h := (c3_digit_count_protocol (initSt ['a', 'b', '\n', 'c', 'd'] 4) 5 0 0).1 rfl
    rw [h.2.1]
    decide
  · have h := ((c3_digit_count_protocol
      { initSt ['a', 'b', '\n', 'c', 'd'] 4 with count := some 1 } 5 0 1).2.1) rfl
    rw [h.2.1]

/-- C10: `find_matches` folds case with ASCII-only lowercasing — any char
outside the ASCII range is left unchanged by the fold, so `"É"` and `"é"`
(differing only in the case of a non-ASCII letter) do not match each other
under case-insensitive search, while ASCII letters do match across case. -/
theorem c10_ascii_case_folding :
    (∀ c : Char, 128 ≤ c.toNat → toAsciiLowerChar c = c) ∧
    findMatches [['É']] ['é'] false = [] ∧
    findMatches [['é']] ['é'] false = [⟨0, 0, 1⟩] ∧
    findMatches [['A']] ['a'] false = [⟨0, 0, 1⟩] := by
  refine ⟨fun c hc => ?_, by decide, by decide, by decide⟩
  rw [toAsciiLowerChar, if_neg]
  omega

/-- Witness for C10: the non-ASCII letter `é` (code point 233) is left
unchanged by the ASCII case fold. -/
theorem c10_ascii_case_folding_witness :
    128 ≤ ('é' : Char).toNat ∧ toAsciiLowerChar 'é' = 'é' :=
  ⟨by decide, c10_ascii_case_folding.1 'é' (by decide)⟩

/-- C4: executing `q`/`quit` in CommandInput mode performs the accepted
quit transition `exit_edit_mode` (back to the `Normal` view mode) when the
buffer is clean; when the buffer is dirty it refuses — the resulting state
changes only the status message and the mode, leaving the rope, dirty
flag, source, stacks, registers and cursor untouched; `q!`/`quit!` discard
the buffer changes (rope reset to the saved source, clean) and quit; and
no command ever signals process termination (the command handler always
returns `false`), while the `q` key in the editor handler signals it
exactly when the buffer is clean — the accepted quit. -/
theorem c4_quit_command_semantics (s : AppSt) :
    (s.dirty = false →
      executeCommand ['q'] s = exitEditMode s ∧
      executeCommand ['q', 'u', 'i', 't'] s = exitEditMode s ∧
      (exitEditMode s).mode = Mode.Normal) ∧
    (s.dirty = true →
      executeCommand ['q'] s =
        { s with status := some "No write since last change (add ! to override)",
                 mode := Mode.Edit } ∧
      executeCommand ['q', 'u', 'i', 't'] s =
        { s with status := some "No write since last change (add ! to override)",
                 mode := Mode.Edit }) ∧
    (executeCommand ['q', '!'] s = exitEditMode (discardChanges s) ∧
     executeCommand ['q', 'u', 'i', 't', '!'] s = exitEditMode (discardChanges s) ∧
     (executeCommand ['q', '!'] s).rope = s.source ∧
     (executeCommand ['q', '!'] s).dirty = false) ∧
    (∀ k, (handleCommandInput k s).2 = false) ∧
    ((normalModeQuitKey s).2 = true ↔ s.dirty = false) := by
  refine ⟨fun hc => ⟨?_, ?_, rfl⟩, fun hd => ⟨?_, ?_⟩, ⟨?_, ?_, ?_, ?_⟩, fun k => rfl, ?_⟩
  · simp only [executeCommand]
    rw [if_neg (by decide), if_neg (by decide), if_neg (by decide), if_pos (by decide), hc]
    simp
  · simp only [executeCommand]
    rw [if_neg (by decide), if_neg (by decide), if_neg (by decide), if_pos (by decide), hc]
    simp
  · simp only [executeCommand]
    rw [if_neg (by decide), if_neg (by decide), if_neg (by decide), if_pos (by decide), hd]
    simp
  · simp only [executeCommand]
    rw [if_neg (by decide), if_neg (by decide), if_neg (by decide), if_pos (by decide), hd]
    simp
  · simp only [executeCommand]
    rw [if_neg (by decide), if_neg (by decide), if_neg (by decide), if_neg (by decide),
        if_pos (by decide)]
  · simp only [executeCommand]
    rw [if_neg (by decide), if_neg (by decide), if_neg (by decide), if_neg (by decide),
        if_pos (by decide)]
  · simp only [executeCommand]
    rw [if_neg (by decide), if_neg (by decide), if_neg (by decide), if_neg (by decide),
        if_pos (by decide)]
    simp [exitEditMode, clearPending, discardChanges]
  · simp only [executeCommand]
    rw [if_neg (by decide), if_neg (by decide), if_neg (by decide), if_neg (by decide),
        if_pos (by decide)]
    simp [exitEditMode, clearPending, discardChanges]
  · cases hd : s.dirty <;> simp [normalModeQuitKey, hd]

/-- Witness for C4 at concrete states: on a clean two-char buffer `:q`
lands in the `Normal` view mode, and on the same buffer marked dirty `:q`
stays in `Edit` mode with the refusal message while the rope survives. -/
theorem c4_quit_command_semantics_witness :
    (executeCommand ['q'] (initSt ['a', 'b'] 0)).mode = Mode.Normal ∧
    (executeCommand ['q'] { initSt ['a', 'b'] 0 with dirty := true }).mode = Mode.Edit ∧
    (executeCommand ['q'] { initSt ['a', 'b'] 0 with dirty := true }).rope = ['a', 'b'] := by
  refine ⟨?_, ?_, ?_⟩
  · have h := (c4_quit_command_semantics (initSt ['a', 'b'] 0)).1 rfl
    rw [h.1]
    rfl
  · have h := (c4_quit_command_semantics
      { initSt ['a', 'b'] 0 with dirty := true }).2.1 rfl
    rw [h.1]
  · have h := (c4_quit_command_semantics
      { initSt ['a', 'b'] 0 with dirty := true }).2.1 rfl
    rw [h.1]
    rfl

/-- C8: for every rendered document with at least one plain line and every
in-range anchor line, the CursorSync forward mapping on a source line whose
normalized text is blank returns exactly the given anchor line with column
0 — the early return fires before any candidate is built, so the plain
lines' contents never influence the result. -/
theorem c8_cursor_sync_blank (plainLines : List (List Char)) (rope : List Char)
    (cursorChar anchor : Nat) (hne : plainLines ≠ [])
    (hanchor : anchor < plainLines.length)
    (hblank : trimWs (normalizeMarkdownLine (currentLineText rope cursorChar)) = []) :
    computeRenderedCursorLineCol plainLines rope cursorChar anchor = some (anchor, 0) := by
  have hmin : min anchor (plainLines.length - 1) = anchor := by omega
  unfold computeRenderedCursorLineCol
  rw [if_neg hne]
  simp [hblank, hmin]

/-- Witness for C8: the heading line `##` normalizes to blank, and the
forward mapping on a three-line rendered document returns the anchor
line 2 at column 0. -/
theorem c8_cursor_sync_blank_witness :
    ([['x'], ['y'], ['z']] : List (List Char)) ≠ [] ∧ (2 : Nat) < 3 ∧
    trimWs (normalizeMarkdownLine (currentLineText ['#', '#'] 0)) = [] ∧
    computeRenderedCursorLineCol [['x'], ['y'], ['z']] ['#', '#'] 0 2 = some (2, 0) :=
  ⟨by decide, by decide, by decide,
   c8_cursor_sync_blank [['x'], ['y'], ['z']] ['#', '#'] 0 2 (by decide) (by decide)
     (by decide)⟩

/-- C7: rendering the two-row example table (`Key`/`Action` header row,
`a`/`Add` body row) produces, in order, the top border, the header row
styled with `table_header`, the header separator, the body row styled with
`base`, and the bottom border — both when the first row carries the header
flag and when no row carries it but a head section was observed (the
defensive fallback then treats the first row as the header). -/
theorem c7_table_render (st : TableStyles) (fragSty : MStyle) :
    renderTable (exTable fragSty true false) st =
      [tableBorderLine [3, 6] '┌' '┬' '┐' st.tableBorder,
       tableRowLine ⟨[⟨['K', 'e', 'y'], [⟨['K', 'e', 'y'], fragSty⟩]⟩,
                      ⟨['A', 'c', 't', 'i', 'o', 'n'],
                       [⟨['A', 'c', 't', 'i', 'o', 'n'], fragSty⟩]⟩], true⟩
         [3, 6] [TAlign.None, TAlign.None] st.tableHeader st.tableBorder,
       tableBorderLine [3, 6] '├' '┼' '┤' st.tableBorder,
       tableRowLine ⟨[⟨['a'], [⟨['a'], fragSty⟩]⟩,
                      ⟨['A', 'd', 'd'], [⟨['A', 'd', 'd'], fragSty⟩]⟩], false⟩
         [3, 6] [TAlign.None, TAlign.None] st.base st.tableBorder,
       tableBorderLine [3, 6] '└' '┴' '┘' st.tableBorder] ∧
    renderTable (exTable fragSty false false) st =
      [tableBorderLine [3, 6] '┌' '┬' '┐' st.tableBorder,
       tableRowLine ⟨[⟨['K', 'e', 'y'], [⟨['K', 'e', 'y'], fragSty⟩]⟩,
                      ⟨['A', 'c', 't', 'i', 'o', 'n'],
                       [⟨['A', 'c', 't', 'i', 'o', 'n'], fragSty⟩]⟩], false⟩
         [3, 6] [TAlign.None, TAlign.None] st.tableHeader st.tableBorder,
       tableBorderLine [3, 6] '├' '┼' '┤' st.tableBorder,
       tableRowLine ⟨[⟨['a'], [⟨['a'], fragSty⟩]⟩,
                      ⟨['A', 'd', 'd'], [⟨['A', 'd', 'd'], fragSty⟩]⟩], false⟩
         [3, 6] [TAlign.None, TAlign.None] st.base st.tableBorder,
       tableBorderLine [3, 6] '└' '┴' '┘' st.tableBorder] := by
  constructor <;> rfl

/-! ## Rope line arithmetic lemmas (for C2) -/

theorem countNl_append (a b : List Char) :
    countNl (a ++ b) = countNl a + countNl b := by
  induction a with
  | nil => simp [countNl]
  | cons c rest ih => simp [countNl, ih, Nat.add_assoc]

theorem countNl_take_lineToChar (t : List Char) (l : Nat) :
    countNl (t.take (lineToChar t l)) = min l (countNl t) := by
  induction t generalizing l with
  | nil => cases l <;> simp [lineToChar, countNl]
  | cons c rest ih =>
    cases l with
    | zero => simp [lineToChar, countNl]
    | succ l0 =>
      by_cases hc : c = '\n'
      · have h1 : lineToChar (c :: rest) (l0 + 1) = 1 + lineToChar rest l0 := by
          simp [lineToChar, hc]
        rw [h1, Nat.add_comm, List.take_succ_cons]
        have h2 : countNl (c :: List.take (lineToChar rest l0) rest)
            = 1 + countNl (List.take (lineToChar rest l0) rest) := by simp [countNl, hc]
        have h3 : countNl (c :: rest) = 1 + countNl rest := by simp [countNl, hc]
        rw [h2, ih, h3]
        omega
      · have h1 : lineToChar (c :: rest) (l0 + 1) = 1 + lineToChar rest (l0 + 1) := by
          simp [lineToChar, hc]
        rw [h1, Nat.add_comm, List.take_succ_cons]
        have h2 : countNl (c :: List.take (lineToChar rest (l0 + 1)) rest)
            = countNl (List.take (lineToChar rest (l0 + 1)) rest) := by simp [countNl, hc]
        have h3 : countNl (c :: rest) = countNl rest := by simp [countNl, hc]
        rw [h2, ih, h3]

theorem lineToChar_lt_succ (t : List Char) : ∀ l, l < countNl t →
    lineToChar t l < lineToChar t (l + 1) := by
  induction t with
  | nil => intro l hl; simp [countNl] at hl
  | cons c rest ih =>
    intro l hl
    by_cases hc : c = '\n'
    · cases l with
      | zero => simp [lineToChar, hc]
      | succ l0 =>
        have hl' : l0 < countNl rest := by simp [countNl, hc] at hl; omega
        have := ih l0 hl'
        simp [lineToChar, hc]
        omega
    · have hl' : l < countNl rest := by
        simp [countNl, hc] at hl
        omega
      cases l with
      | zero => simp [lineToChar, hc]
      | succ l0 =>
        have := ih (l0 + 1) hl'
        simp [lineToChar, hc]
        omega

/-- `delete_lines 1` on a cursor line strictly before the last rope line:
the rope loses exactly that line's span, and the cursor lands at the start
of the same line index in the new rope. -/
theorem deleteLines_one_rope_cursor (s : AppSt)
    (h : charToLine s.rope s.cursorChar < countNl s.rope) :
    (deleteLines 1 s).rope =
      s.rope.take (lineToChar s.rope (charToLine s.rope s.cursorChar)) ++
      s.rope.drop (lineToChar s.rope (charToLine s.rope s.cursorChar + 1)) ∧
    (deleteLines 1 s).cursorChar =
      lineToChar
        (s.rope.take (lineToChar s.rope (charToLine s.rope s.cursorChar)) ++
         s.rope.drop (lineToChar s.rope (charToLine s.rope s.cursorChar + 1)))
        (min (charToLine s.rope s.cursorChar)
          (lenLines
            (s.rope.take (lineToChar s.rope (charToLine s.rope s.cursorChar)) ++
             s.rope.drop (lineToChar s.rope (charToLine s.rope s.cursorChar + 1))) - 1)) := by
  have h1 : min (charToLine s.rope s.cursorChar + 1) (lenLines s.rope) =
      charToLine s.rope s.cursorChar + 1 := by
    simp only [lenLines]
    omega
  have h2 : ¬ (lenLines s.rope ≤ charToLine s.rope s.cursorChar + 1) := by
    simp only [lenLines]
    omega
  have hrange : lineRange s (charToLine s.rope s.cursorChar) 1 =
      (lineToChar s.rope (charToLine s.rope s.cursorChar),
       lineToChar s.rope (charToLine s.rope s.cursorChar + 1)) := by
    unfold lineRange
    simp only [h1]
    rw [if_neg h2]
  have hne : lineToChar s.rope (charToLine s.rope s.cursorChar) ≠
      lineToChar s.rope (charToLine s.rope s.cursorChar + 1) :=
    Nat.ne_of_lt (lineToChar_lt_succ s.rope (charToLine s.rope s.cursorChar) h)
  unfold deleteLines
  rw [Nat.max_self]
  simp only [hrange]
  rw [if_neg hne]
  constructor
  · simp only [setRegister_rope, pushUndo_rope]
  · simp only [setRegister_rope, pushUndo_rope]

/-- C2 (amended): for every buffer and cursor position whose line is
strictly before the final rope line (`original_line < N - 1` with `N =
len_lines`), `dd` removes exactly one line (`len_lines` drops to `N - 1`)
and the cursor's resulting line index equals `min(original_line, N - 2)`.
On the final rope line the deletion cannot reduce `len_lines` (see the
counterexample), so the original unrestricted claim fails there. -/
theorem c2_dd_deletes_one_line (s : AppSt)
    (h : charToLine s.rope s.cursorChar + 1 < lenLines s.rope) :
    lenLines (deleteLines 1 s).rope = lenLines s.rope - 1 ∧
    charToLine (deleteLines 1 s).rope (deleteLines 1 s).cursorChar =
      min (charToLine s.rope s.cursorChar) (lenLines s.rope - 2) := by
  have hl : charToLine s.rope s.cursorChar < countNl s.rope := by
    simp only [lenLines] at h
    omega
  obtain ⟨hrope, hcursor⟩ := deleteLines_one_rope_cursor s hl
  have hA : countNl (s.rope.take (lineToChar s.rope (charToLine s.rope s.cursorChar)))
      = charToLine s.rope s.cursorChar := by
    rw [countNl_take_lineToChar]
    omega
  have hB : countNl (s.rope.take (lineToChar s.rope (charToLine s.rope s.cursorChar + 1)))
      = charToLine s.rope s.cursorChar + 1 := by
    rw [countNl_take_lineToChar]
    omega
  have hsplit :
      countNl (s.rope.take (lineToChar s.rope (charToLine s.rope s.cursorChar + 1))) +
      countNl (s.rope.drop (lineToChar s.rope (charToLine s.rope s.cursorChar + 1)))
        = countNl s.rope := by
    rw [← countNl_append, List.take_append_drop]
  have hcnt :
      countNl (s.rope.take (lineToChar s.rope (charToLine s.rope s.cursorChar)) ++
               s.rope.drop (lineToChar s.rope (charToLine s.rope s.cursorChar + 1)))
        = countNl s.rope - 1 := by
    rw [countNl_append, hA]
    omega
  constructor
  · rw [hrope]
    simp only [lenLines, hcnt]
    omega
  · rw [hrope, hcursor]
    have hct : charToLine
        (s.rope.take (lineToChar s.rope (charToLine s.rope s.cursorChar)) ++
         s.rope.drop (lineToChar s.rope (charToLine s.rope s.cursorChar + 1)))
        (lineToChar
          (s.rope.take (lineToChar s.rope (charToLine s.rope s.cursorChar)) ++
           s.rope.drop (lineToChar s.rope (charToLine s.rope s.cursorChar + 1)))
          (min (charToLine s.rope s.cursorChar)
            (lenLines
              (s.rope.take (lineToChar s.rope (charToLine s.rope s.cursorChar)) ++
               s.rope.drop (lineToChar s.rope (charToLine s.rope s.cursorChar + 1))) - 1)))
        = min
            (min (charToLine s.rope s.cursorChar)
              (lenLines
                (s.rope.take (lineToChar s.rope (charToLine s.rope s.cursorChar)) ++
                 s.rope.drop (lineToChar s.rope (charToLine s.rope s.cursorChar + 1))) - 1))
            (countNl
              (s.rope.take (lineToChar s.rope (charToLine s.rope s.cursorChar)) ++
               s.rope.drop (lineToChar s.rope (charToLine s.rope s.cursorChar + 1)))) := by
      unfold charToLine
      rw [countNl_take_lineToChar]
    rw [hct]
    simp only [lenLines, hcnt]
    omega

/-- Counterexample to C2 as stated: on the one-line buffer `"a"` (cursor on
its only and last rope line) `dd` empties the rope but `len_lines` stays 1
(an empty rope still counts one line), so `dd` does not remove exactly one
line there. -/
theorem c2_dd_last_line_counterexample :
    (deleteLines 1 (initSt ['a'] 0)).rope = [] ∧
    lenLines (([]) : List Char) = 1 ∧
    ¬ (lenLines ((deleteLines 1 (initSt ['a'] 0)).rope) = lenLines ['a'] - 1) := by
  refine ⟨?_, rfl, ?_⟩ <;> decide

/-- Witness for C2 on the buffer `"a\nb\n"` with the cursor on line 0:
`dd` leaves 2 rope lines out of 3 and the cursor on line
`min(0, 1) = 0`. -/
theorem c2_dd_deletes_one_line_witness :
    charToLine ['a', '\n', 'b', '\n'] 0 + 1 < lenLines ['a', '\n', 'b', '\n'] ∧
    lenLines ((deleteLines 1 (initSt ['a', '\n', 'b', '\n'] 0)).rope) =
      lenLines ['a', '\n', 'b', '\n'] - 1 ∧
    charToLine ((deleteLines 1 (initSt ['a', '\n', 'b', '\n'] 0)).rope)
        ((deleteLines 1 (initSt ['a', '\n', 'b', '\n'] 0)).cursorChar) =
      min (charToLine ['a', '\n', 'b', '\n'] 0) (lenLines ['a', '\n', 'b', '\n'] - 2) := by
  refine ⟨by decide, ?_, ?_⟩
  · exact (c2_dd_deletes_one_line (initSt ['a', '\n', 'b', '\n'] 0) (by decide)).1
  · exact (c2_dd_deletes_one_line (initSt ['a', '\n', 'b', '\n'] 0) (by decide)).2

/-! ## Search scan lemmas (for C5) -/

theorem findFrom_ge (hay needle : List Char) (cursor i : Nat)
    (h : findFrom hay needle cursor = some i) : cursor ≤ i := by
  unfold findFrom at h
  have hp := List.find?_some h
  simp only [Bool.and_eq_true, decide_eq_true_eq] at hp
  exact hp.1

theorem scanLine_mem_bounds (hay needle : List Char) :
    ∀ fuel cursor m, m ∈ scanLine hay needle fuel cursor →
      cursor ≤ m.1 ∧ m.2 = m.1 + needle.length := by
  intro fuel
  induction fuel with
  | zero => intro cursor m hm; simp [scanLine] at hm
  | succ f ih =>
    intro cursor m hm
    simp only [scanLine] at hm
    split at hm
    · rcases hfind : findFrom hay needle cursor with _ | start
      · rw [hfind] at hm
        simp at hm
      · rw [hfind] at hm
        simp only [List.mem_cons] at hm
        rcases hm with rfl | hm'
        · exact ⟨findFrom_ge hay needle cursor start hfind, rfl⟩
        · have h2 := ih (start + needle.length) m hm'
          have h3 := findFrom_ge hay needle cursor start hfind
          exact ⟨by omega, h2.2⟩
    · simp at hm

theorem scanLine_pairwise_le (hay needle : List Char) :
    ∀ fuel cursor,
      List.Pairwise (fun a b : Nat × Nat => a.2 ≤ b.1) (scanLine hay needle fuel cursor) := by
  intro fuel
  induction fuel with
  | zero => intro cursor; simp [scanLine]
  | succ f ih =>
    intro cursor
    simp only [scanLine]
    split
    · rcases hfind : findFrom hay needle cursor with _ | start
      · simp
      · refine List.Pairwise.cons ?_ (ih (start + needle.length))
        intro b hb
        exact (scanLine_mem_bounds hay needle f (start + needle.length) b hb).1
    · simp

theorem pairwise_fst_lt_enumFrom {α : Type} (l : List α) : ∀ n,
    List.Pairwise (fun p q : Nat × α => p.1 < q.1) (List.enumFrom n l) := by
  induction l with
  | nil => intro n; simp
  | cons a rest ih =>
    intro n
    simp only [List.enumFrom]
    refine List.Pairwise.cons ?_ (ih (n + 1))
    intro q hq
    rcases q with ⟨i, x⟩
    have hmem := List.mem_enumFrom hq
    simp only
    omega

/-- C5: for every list of plain lines and non-empty query, the matches
`find_matches` produces are ordered left-to-right and non-overlapping —
consecutive matches either sit on later lines or, on the same line, start
at or after the previous match's end (the scan cursor resumes at each
match's end) — and searching for `cat` in the single line `catcat` yields
exactly the two matches `[0, 3)` and `[3, 6)`. -/
theorem c5_search_scan :
    (∀ (lines : List (List Char)) (query : List Char) (cs : Bool), query ≠ [] →
      List.Pairwise
        (fun a b : SMatch => a.line < b.line ∨ (a.line = b.line ∧ a.stop ≤ b.start))
        (findMatches lines query cs)) ∧
    findMatches [['c', 'a', 't', 'c', 'a', 't']] ['c', 'a', 't'] true =
      [⟨0, 0, 3⟩, ⟨0, 3, 6⟩] := by
  constructor
  · intro lines query cs hq
    unfold findMatches
    have hne : ¬ ((if cs then query else toAsciiLower query) = []) := by
      cases cs <;> simp [toAsciiLower, hq]
    rw [if_neg hne]
    rw [List.pairwise_flatMap]
    constructor
    · intro p hp
      rw [List.pairwise_map]
      refine (scanLine_pairwise_le _ _ _ 0).imp ?_
      intro a b h
      exact Or.inr ⟨rfl, h⟩
    · have henum : List.Pairwise (fun p q : Nat × List Char => p.1 < q.1) lines.enum :=
        pairwise_fst_lt_enumFrom lines 0
      refine henum.imp ?_
      intro p q hpq x hx y hy
      rcases List.mem_map.mp hx with ⟨mx, _, rfl⟩
      rcases List.mem_map.mp hy with ⟨my, _, rfl⟩
      exact Or.inl hpq
  · decide

/-- Witness for C5: the non-empty query `a` over the line `aba` produces a
pairwise-ordered match list. -/
theorem c5_search_scan_witness :
    (['a'] : List Char) ≠ [] ∧
    List.Pairwise
      (fun a b : SMatch => a.line < b.line ∨ (a.line = b.line ∧ a.stop ≤ b.start))
      (findMatches [['a', 'b', 'a']] ['a'] true) :=
  ⟨by decide, c5_search_scan.1 [['a', 'b', 'a']] ['a'] true (by decide)⟩

/-! ## Wrap-stage lemmas (for C6 and C9) -/

theorem spanTokensGo_wf (style : MStyle) :
    ∀ (chars buf : List Char) (cw : Option Bool),
      (cw = none → buf = []) →
      (∀ b, cw = some b → buf ≠ [] ∧ ∀ c ∈ buf, isWsChar c = b) →
      ∀ tok ∈ spanTokensGo style chars buf cw,
        tok.text ≠ [] ∧ ∀ c ∈ tok.text, isWsChar c = tok.isWhitespace := by
  intro chars
  induction chars with
  | nil =>
    intro buf cw h1 h2 tok htok
    simp only [spanTokensGo] at htok
    split at htok
    · simp at htok
    · rename_i hbuf
      simp only [List.mem_singleton] at htok
      subst htok
      cases hcw : cw with
      | none => exact absurd (h1 hcw) hbuf
      | some b =>
        obtain ⟨_, hall⟩ := h2 b hcw
        refine ⟨hbuf, ?_⟩
        simpa [hcw] using hall
  | cons ch rest ih =>
    intro buf cw h1 h2 tok htok
    cases cw with
    | none =>
      have hbuf : buf = [] := h1 rfl
      subst hbuf
      simp only [spanTokensGo] at htok
      have := ih ([] ++ [ch]) (some (isWsChar ch))
        (by intro h; simp at h)
        (by
          intro b hb
          simp only [Option.some.injEq] at hb
          subst hb
          exact ⟨by simp, by simp⟩)
        tok
      apply this
      exact htok
    | some b =>
      by_cases hb : b = isWsChar ch
      · simp only [spanTokensGo, hb] at htok
        refine ih (buf ++ [ch]) (some (isWsChar ch)) (by intro h; simp at h) ?_ tok htok
        intro b2 hb2
        simp only [Option.some.injEq] at hb2
        subst hb2
        obtain ⟨hne, hall⟩ := h2 (isWsChar ch) (by rw [hb])
        refine ⟨by simp, ?_⟩
        intro c hc
        rcases List.mem_append.mp hc with h | h
        · exact hall c h
        · simp only [List.mem_singleton] at h
          subst h
          rfl
      · have hcond : ¬ ((some b : Option Bool) = some (isWsChar ch)) := by
          simpa using hb
        simp only [spanTokensGo, if_neg hcond, List.mem_cons] at htok
        rcases htok with rfl | htok
        · obtain ⟨hne, hall⟩ := h2 b rfl
          exact ⟨hne, by simpa using hall⟩
        · refine ih [ch] (some (isWsChar ch)) (by intro h; simp at h) ?_ tok htok
          intro b2 hb2
          simp only [Option.some.injEq] at hb2
          subst hb2
          exact ⟨by simp, by simp⟩

theorem tokenizeLine_wf (line : MLine) :
    ∀ tok ∈ tokenizeLine line,
      tok.text ≠ [] ∧ ∀ c ∈ tok.text, isWsChar c = tok.isWhitespace := by
  intro tok htok
  unfold tokenizeLine at htok
  rcases List.mem_flatMap.mp htok with ⟨sp, _, hmem⟩
  split at hmem
  · simp at hmem
  · exact spanTokensGo_wf sp.style sp.content [] none (fun _ => rfl)
      (by intro b hb; simp at hb) tok hmem

theorem getLast?_ne_of_all {l : List Char} {x : Char}
    (h : ∀ c ∈ l, c ≠ x) : l.getLast? ≠ some x := by
  intro hsome
  have hmem : x ∈ l.getLast? := by rw [hsome]; rfl
  obtain ⟨hne, heq⟩ := List.mem_getLast?_eq_getLast hmem
  exact h x (heq ▸ List.getLast_mem hne) rfl

theorem trimCharsEndSpaces_getLast (l : List Char) :
    (trimCharsEndSpaces l).getLast? ≠ some ' ' := by
  unfold trimCharsEndSpaces
  rw [List.getLast?_reverse]
  have hd := List.head?_dropWhile_not (fun c => decide (c = ' ')) l.reverse
  cases hh : (List.dropWhile (fun c => decide (c = ' ')) l.reverse).head? with
  | none => simp [hh]
  | some c =>
    rw [hh] at hd
    simp only [decide_eq_false_iff_not] at hd
    simpa using hd

theorem dropWhile_length_eq {p : Char → Bool} {l : List Char}
    (h : (l.dropWhile p).length = l.length) : l.dropWhile p = l := by
  have hsplit := List.takeWhile_append_dropWhile p l
  have hlen : (l.takeWhile p).length + (l.dropWhile p).length = l.length := by
    rw [← List.length_append, hsplit]
  have htw : l.takeWhile p = [] :=
    List.eq_nil_of_length_eq_zero (by omega)
  conv_rhs => rw [← hsplit, htw]
  simp

theorem trimCharsEndSpaces_of_length_eq {l : List Char}
    (h : (trimCharsEndSpaces l).length = l.length) : trimCharsEndSpaces l = l := by
  unfold trimCharsEndSpaces at h ⊢
  have hlen : (List.dropWhile (fun c => decide (c = ' ')) l.reverse).length
      = l.reverse.length := by
    simpa using h
  rw [dropWhile_length_eq hlen, List.reverse_reverse]

theorem trimTrailingWsRev_plain_getLast :
    ∀ (spans : List MSpan), (∀ sp ∈ spans, sp.content ≠ []) →
      ((trimTrailingWsRev spans).reverse.flatMap MSpan.content).getLast? ≠ some ' ' := by
  intro spans
  induction spans with
  | nil => intro _; simp [trimTrailingWsRev]
  | cons sp rest ih =>
    intro hne
    simp only [trimTrailingWsRev]
    split
    · rename_i hlen
      have hkeep : trimCharsEndSpaces sp.content = sp.content :=
        trimCharsEndSpaces_of_length_eq hlen
      rw [List.reverse_cons, List.flatMap_append]
      have hlast : sp.content.getLast? ≠ some ' ' := by
        rw [← hkeep]
        exact trimCharsEndSpaces_getLast sp.content
      rw [List.getLast?_append]
      simp only [List.flatMap_cons, List.flatMap_nil, List.append_nil]
      cases hc : sp.content.getLast? with
      | none =>
        exact absurd (List.getLast?_eq_none_iff.mp hc) (hne sp (List.mem_cons_self _ _))
      | some c =>
        rw [hc] at hlast
        simpa using hlast
    · split
      · exact ih fun sp2 h2 => hne sp2 (List.mem_cons_of_mem _ h2)
      · rename_i hlen htrne
        rw [List.reverse_cons, List.flatMap_append]
        rw [List.getLast?_append]
        simp only [List.flatMap_cons, List.flatMap_nil, List.append_nil]
        have hlast := trimCharsEndSpaces_getLast sp.content
        cases hc : (trimCharsEndSpaces sp.content).getLast? with
        | none => exact absurd (List.getLast?_eq_none_iff.mp hc) htrne
        | some c =>
          rw [hc] at hlast
          simpa using hlast

theorem pushCurrentLine_none_noTrail (cur : List MSpan)
    (hne : ∀ sp ∈ cur, sp.content ≠ []) :
    (linePlain (pushCurrentLine none cur)).getLast? ≠ some ' ' := by
  unfold pushCurrentLine
  split
  · simp [emptyMLine, linePlain]
  · unfold linePlain trimTrailingWs
    exact trimTrailingWsRev_plain_getLast cur.reverse
      fun sp hsp => hne sp (List.mem_reverse.mp hsp)

theorem hardSplitGo_noTrail (w : Nat) (style : MStyle) :
    ∀ (chars buf : List Char) (bufW : Nat),
      (∀ c ∈ chars, isWsChar c = false) → (∀ c ∈ buf, isWsChar c = false) →
      (∀ ml ∈ (hardSplitGo w style chars buf bufW).1,
        (linePlain ml).getLast? ≠ some ' ') ∧
      (∀ c ∈ (hardSplitGo w style chars buf bufW).2.1, isWsChar c = false) := by
  intro chars
  induction chars with
  | nil =>
    intro buf bufW _ hbuf
    refine ⟨?_, ?_⟩
    · intro ml hml
      simp [hardSplitGo] at hml
    · simpa [hardSplitGo] using hbuf
  | cons ch rest ih =>
    intro buf bufW hchars hbuf
    have hch : isWsChar ch = false := hchars ch (List.mem_cons_self _ _)
    have hrest : ∀ c ∈ rest, isWsChar c = false :=
      fun c hc => hchars c (List.mem_cons_of_mem _ hc)
    simp only [hardSplitGo]
    split
    · have hr := ih [ch] (charWidth ch) hrest
        (by intro c hc; simp only [List.mem_singleton] at hc; subst hc; exact hch)
      refine ⟨?_, hr.2⟩
      intro ml hml
      rcases List.mem_cons.mp hml with rfl | h
      · simp only [linePlain, List.flatMap_cons, List.flatMap_nil, List.append_nil]
        exact getLast?_ne_of_all fun c hc => by
          have := hbuf c hc
          intro he
          subst he
          simp [isWsChar] at this
      · exact hr.1 ml h
    · exact ih (buf ++ [ch]) (bufW + charWidth ch) hrest
        (by
          intro c hc
          rcases List.mem_append.mp hc with h | h
          · exact hbuf c h
          · simp only [List.mem_singleton] at h
            subst h
            exact hch)

theorem wrapFold_none_noTrail (w : Nat) :
    ∀ (toks : List WToken) (out : List MLine) (cur : List MSpan) (cw : Nat),
      (∀ tok ∈ toks, tok.text ≠ [] ∧ ∀ c ∈ tok.text, isWsChar c = tok.isWhitespace) →
      (∀ ml ∈ out, (linePlain ml).getLast? ≠ some ' ') →
      (∀ sp ∈ cur, sp.content ≠ []) →
      (∀ ml ∈ (wrapFold none w toks out cur cw).1, (linePlain ml).getLast? ≠ some ' ') ∧
      (∀ sp ∈ (wrapFold none w toks out cur cw).2.1, sp.content ≠ []) := by
  intro toks
  induction toks with
  | nil =>
    intro out cur cw _ hout hcur
    exact ⟨hout, hcur⟩
  | cons tok rest ih =>
    intro out cur cw htoks hout hcur
    have htok := htoks tok (List.mem_cons_self _ _)
    have hrest : ∀ t ∈ rest, t.text ≠ [] ∧ ∀ c ∈ t.text, isWsChar c = t.isWhitespace :=
      fun t ht => htoks t (List.mem_cons_of_mem _ ht)
    have hout_push : ∀ ml ∈ out ++ [pushCurrentLine none cur],
        (linePlain ml).getLast? ≠ some ' ' := by
      intro ml hml
      rcases List.mem_append.mp hml with h | h
      · exact hout ml h
      · simp only [List.mem_singleton] at h
        subst h
        exact pushCurrentLine_none_noTrail cur hcur
    simp only [wrapFold]
    split
    · -- whitespace token
      split
      · exact ih out cur cw hrest hout hcur
      · split
        · exact ih (out ++ [pushCurrentLine none cur]) [] 0 hrest hout_push (by simp)
        · refine ih out (cur ++ [⟨tok.text, tok.style⟩]) (cw + strWidth tok.text)
            hrest hout ?_
          intro sp hsp
          rcases List.mem_append.mp hsp with h | h
          · exact hcur sp h
          · simp only [List.mem_singleton] at h
            subst h
            exact htok.1
    · -- non-whitespace token
      rename_i hws
      have hnonws : ∀ c ∈ tok.text, isWsChar c = false := by
        intro c hc
        rw [htok.2 c hc]
        simpa using hws
      split
      · split
        · refine ih (out ++ [pushCurrentLine none cur]) [⟨tok.text, tok.style⟩]
            (strWidth tok.text) hrest hout_push ?_
          intro sp hsp
          simp only [List.mem_singleton] at hsp
          subst hsp
          exact htok.1
        · refine ih out (cur ++ [⟨tok.text, tok.style⟩]) (cw + strWidth tok.text)
            hrest hout ?_
          intro sp hsp
          rcases List.mem_append.mp hsp with h | h
          · exact hcur sp h
          · simp only [List.mem_singleton] at h
            subst h
            exact htok.1
      · -- hard split
        have hhs := hardSplitGo_noTrail w tok.style tok.text [] 0 hnonws (by simp)
        have hp : ∀ ml ∈ (if cur = [] then (out, cw)
            else (out ++ [pushCurrentLine none cur], 0)).1,
            (linePlain ml).getLast? ≠ some ' ' := by
          split
          · exact hout
          · exact hout_push
        have hpout : ∀ ml ∈ (if cur = [] then (out, cw)
            else (out ++ [pushCurrentLine none cur], 0)).1 ++
              (hardSplitGo w tok.style tok.text [] 0).1,
            (linePlain ml).getLast? ≠ some ' ' := by
          intro ml hml
          rcases List.mem_append.mp hml with h | h
          · exact hp ml h
          · exact hhs.1 ml h
        refine ih _ _ _ hrest hpout ?_
        split
        · simp
        · intro sp hsp
          simp only [List.mem_singleton] at hsp
          subst hsp
          rename_i hne2
          simpa using hne2

/-- C6 (amended): word-wrapping the single-span line `"The quick brown
fox"` at width 10 produces exactly the two lines `"The quick"` and
`"brown fox"`, each of display width at most 10 and neither starting with
a space; in general greedy wrapping trims trailing space characters
(U+0020 — not all whitespace: a trailing tab survives, see the
counterexample) from each wrapped line of a line without uniform
background, and a non-whitespace token wider than the width is hard-split
per character (`"abcdefgh"` at width 3 becomes `abc`/`def`/`gh`). -/
theorem c6_wrap_example_and_trim :
    ((wrapLine exFoxLine 10).map linePlain =
        [['T', 'h', 'e', ' ', 'q', 'u', 'i', 'c', 'k'],
         ['b', 'r', 'o', 'w', 'n', ' ', 'f', 'o', 'x']] ∧
      ∀ ml ∈ wrapLine exFoxLine 10,
        strWidth (linePlain ml) ≤ 10 ∧ (linePlain ml).head? ≠ some ' ') ∧
    (∀ (line : MLine) (w : Nat), lineUniformBg line = none → 1 ≤ w →
      ∀ ml ∈ wrapLine line w, (linePlain ml).getLast? ≠ some ' ') ∧
    (wrapLine exWideLine 3).map linePlain =
      [['a', 'b', 'c'], ['d', 'e', 'f'], ['g', 'h']] := by
  refine ⟨⟨by decide, by decide⟩, ?_, by decide⟩
  intro line w hbg hw ml hml
  have hw0 : ¬ (w = 0) := by omega
  simp only [wrapLine, if_neg hw0, hbg] at hml
  by_cases htk : tokenizeLine line = []
  · simp only [wrapWithFill, htk, if_pos, List.mem_singleton] at hml
    subst hml
    simp [emptyMLine, linePlain]
  · simp only [wrapWithFill] at hml
    rw [if_neg htk] at hml
    have hwf := tokenizeLine_wf line
    have hfold := wrapFold_none_noTrail w (tokenizeLine line) [] [] 0 hwf
      (by simp) (by simp)
    rcases List.mem_append.mp hml with h | h
    · exact hfold.1 ml h
    · simp only [List.mem_singleton] at h
      subst h
      exact pushCurrentLine_none_noTrail _ hfold.2

/-- Counterexample to C6 as stated: wrapping the line `"a\t"` at width 10
yields the single wrapped line `"a\t"`, whose last character is the tab —
a whitespace character that survives, because `trim_trailing_ws` only
strips the space character. -/
theorem c6_trailing_whitespace_counterexample :
    (wrapLine exTabLine 10).map linePlain = [['a', '\t']] ∧
    (linePlain ((wrapLine exTabLine 10).getD 0 emptyMLine)).getLast? = some '\t' ∧
    isWsChar '\t' = true := by
  refine ⟨by decide, by decide, by decide⟩

/-- Witness for C6: the fox line has no uniform background and its wrapped
lines carry no trailing space. -/
theorem c6_wrap_example_and_trim_witness :
    lineUniformBg exFoxLine = none ∧
    ∀ ml ∈ wrapLine exFoxLine 10, (linePlain ml).getLast? ≠ some ' ' :=
  ⟨by decide, c6_wrap_example_and_trim.2.1 exFoxLine 10 (by decide) (by omega)⟩

/-! ## Width lemmas (for C9) -/

theorem strWidth_replicate_space (n : Nat) :
    strWidth (List.replicate n ' ') = n := by
  simp [strWidth, List.map_replicate, List.sum_replicate, charWidth]

theorem spansWidth_append (a b : List MSpan) :
    spansWidth (a ++ b) = spansWidth a + spansWidth b := by
  simp [spansWidth]

theorem spansWidth_singleton (text : List Char) (style : MStyle) :
    spansWidth [⟨text, style⟩] = strWidth text := by
  simp [spansWidth]

theorem trimCharsEndSpaces_width_le (l : List Char) :
    strWidth (trimCharsEndSpaces l) ≤ strWidth l := by
  have hsplit := List.takeWhile_append_dropWhile (fun c => decide (c = ' ')) l.reverse
  have hl : l = trimCharsEndSpaces l ++
      (List.takeWhile (fun c => decide (c = ' ')) l.reverse).reverse := by
    unfold trimCharsEndSpaces
    rw [← List.reverse_append, hsplit, List.reverse_reverse]
  conv_rhs => rw [hl]
  simp [strWidth]

theorem trimTrailingWsRev_width_le :
    ∀ spans : List MSpan, spansWidth (trimTrailingWsRev spans) ≤ spansWidth spans := by
  intro spans
  induction spans with
  | nil => simp [trimTrailingWsRev]
  | cons sp rest ih =>
    simp only [trimTrailingWsRev]
    split
    · exact le_refl _
    · split
      · calc spansWidth (trimTrailingWsRev rest) ≤ spansWidth rest := ih
          _ ≤ spansWidth (sp :: rest) := by simp [spansWidth]
      · have : strWidth (trimCharsEndSpaces sp.content) ≤ strWidth sp.content :=
          trimCharsEndSpaces_width_le sp.content
        simp only [spansWidth, List.map_cons, List.sum_cons]
        omega

theorem spansWidth_reverse (spans : List MSpan) :
    spansWidth spans.reverse = spansWidth spans := by
  unfold spansWidth
  rw [List.map_reverse, List.sum_reverse]

theorem trimTrailingWs_width_le (spans : List MSpan) :
    spansWidth (trimTrailingWs spans) ≤ spansWidth spans := by
  unfold trimTrailingWs
  calc spansWidth (trimTrailingWsRev spans.reverse).reverse
      = spansWidth (trimTrailingWsRev spans.reverse) := spansWidth_reverse _
    _ ≤ spansWidth spans.reverse := trimTrailingWsRev_width_le _
    _ = spansWidth spans := spansWidth_reverse _

theorem pushCurrentLine_fill_width (style : MStyle) (w : Nat) (cur : List MSpan)
    (h : spansWidth cur ≤ w) :
    spansWidth (pushCurrentLine (some (style, w)) cur).spans = w := by
  have htr : spansWidth (trimTrailingWs cur) ≤ w :=
    le_trans (trimTrailingWs_width_le cur) h
  unfold pushCurrentLine
  split
  · simp [spansWidth, strWidth_replicate_space]
  · simp only
    split
    · rename_i hlt
      simp only [spansWidth_append, spansWidth_singleton, strWidth_replicate_space]
      omega
    · rename_i hge
      simp only at hge ⊢
      omega

theorem wrapFold_fill_width (style : MStyle) (w : Nat) :
    ∀ (toks : List WToken) (out : List MLine) (cur : List MSpan) (cw : Nat),
      (∀ tok ∈ toks, tok.isWhitespace = false → strWidth tok.text ≤ w) →
      (∀ ml ∈ out, spansWidth ml.spans = w) →
      spansWidth cur = cw → cw ≤ w →
      (∀ ml ∈ (wrapFold (some (style, w)) w toks out cur cw).1,
        spansWidth ml.spans = w) ∧
      spansWidth (wrapFold (some (style, w)) w toks out cur cw).2.1 =
        (wrapFold (some (style, w)) w toks out cur cw).2.2 ∧
      (wrapFold (some (style, w)) w toks out cur cw).2.2 ≤ w := by
  intro toks
  induction toks with
  | nil =>
    intro out cur cw _ hout hcw hle
    exact ⟨hout, hcw, hle⟩
  | cons tok rest ih =>
    intro out cur cw htoks hout hcw hle
    have hrest : ∀ t ∈ rest, t.isWhitespace = false → strWidth t.text ≤ w :=
      fun t ht => htoks t (List.mem_cons_of_mem _ ht)
    have hout_push : ∀ ml ∈ out ++ [pushCurrentLine (some (style, w)) cur],
        spansWidth ml.spans = w := by
      intro ml hml
      rcases List.mem_append.mp hml with h | h
      · exact hout ml h
      · simp only [List.mem_singleton] at h
        subst h
        exact pushCurrentLine_fill_width style w cur (hcw ▸ hle)
    simp only [wrapFold]
    split
    · -- whitespace token
      split
      · exact ih out cur cw hrest hout hcw hle
      · split
        · exact ih (out ++ [pushCurrentLine (some (style, w)) cur]) [] 0 hrest
            hout_push (by simp [spansWidth]) (by omega)
        · rename_i hfit
          refine ih out (cur ++ [⟨tok.text, tok.style⟩]) (cw + strWidth tok.text)
            hrest hout ?_ ?_
          · rw [spansWidth_append, spansWidth_singleton, hcw]
          · omega
    · -- non-whitespace token
      rename_i hws
      have hw_tok : strWidth tok.text ≤ w :=
        htoks tok (List.mem_cons_self _ _) (by simpa using hws)
      split
      · split
        · refine ih (out ++ [pushCurrentLine (some (style, w)) cur])
            [⟨tok.text, tok.style⟩] (strWidth tok.text) hrest hout_push ?_ hw_tok
          exact spansWidth_singleton _ _
        · rename_i hnot
          refine ih out (cur ++ [⟨tok.text, tok.style⟩]) (cw + strWidth tok.text)
            hrest hout ?_ ?_
          · rw [spansWidth_append, spansWidth_singleton, hcw]
          · by_cases hc : cur = []
            · subst hc
              simp only [spansWidth, List.map_nil, List.sum_nil] at hcw
              omega
            · rcases Decidable.not_and_iff_or_not.mp hnot with h | h
              · omega
              · exact absurd hc (by simpa using h)
      · rename_i htw
        exact absurd hw_tok (by omega)

/-- C9: the full-width background-padding mechanism of `wrap_line` is
active only for wrap widths of at most 500 columns — for any width above
500 (in particular the `u16::MAX` used when wrapping is disabled) the fill
configuration is dropped and wrapping proceeds exactly as for a line with
no uniform background, so no padding spans are added; conversely, for a
uniform-background line at width ≤ 500 whose non-whitespace tokens all fit
the width, every wrapped line is padded to exactly the full width.  The
concrete pair: the background line `"ab"` stays 2 columns wide at width
600, and is padded with 8 background spaces at width 10. -/
theorem c9_uniform_bg_fill_threshold :
    (∀ (line : MLine) (w : Nat), 500 < w →
      wrapLine line w = wrapWithFill none w line) ∧
    (∀ (line : MLine) (w : Nat) (c : MColor),
      lineUniformBg line = some c → 1 ≤ w → w ≤ 500 →
      (∀ tok ∈ tokenizeLine line, tok.isWhitespace = false → strWidth tok.text ≤ w) →
      ∀ ml ∈ wrapLine line w, spansWidth ml.spans = w) ∧
    (∀ w, renderWidth false w = 65535 ∧ 500 < renderWidth false w) ∧
    wrapLine exBgLine 600 = [⟨[⟨['a', 'b'], exBgStyle⟩]⟩] ∧
    wrapLine exBgLine 10 =
      [⟨[⟨['a', 'b'], exBgStyle⟩,
         ⟨List.replicate 8 ' ', ⟨none, some (MColor.Palette 7)⟩⟩]⟩] := by
  refine ⟨?_, ?_, fun w => ⟨rfl, by simp [renderWidth]⟩, by decide, by decide⟩
  · intro line w hw
    have hw0 : ¬ (w = 0) := by omega
    simp only [wrapLine, if_neg hw0]
    cases hbg : lineUniformBg line with
    | none => rfl
    | some c =>
      simp only
      rw [if_pos hw]
  · intro line w c hbg hw1 hw500 htoks ml hml
    have hw0 : ¬ (w = 0) := by omega
    have hnot : ¬ (500 < w) := by omega
    simp only [wrapLine, if_neg hw0, hbg] at hml
    rw [if_neg hnot] at hml
    by_cases htk : tokenizeLine line = []
    · simp only [wrapWithFill, htk, if_pos, List.mem_singleton] at hml
      subst hml
      simp [spansWidth, strWidth_replicate_space]
    · simp only [wrapWithFill] at hml
      rw [if_neg htk] at hml
      have hfold := wrapFold_fill_width ⟨none, some c⟩ w (tokenizeLine line) [] [] 0
        htoks (by simp) (by simp [spansWidth]) (by omega)
      rcases List.mem_append.mp hml with h | h
      · exact hfold.1 ml h
      · simp only [List.mem_singleton] at h
        subst h
        exact pushCurrentLine_fill_width _ w _ (hfold.2.1 ▸ hfold.2.2)

/-- Witness for C9: at width 501 the background line wraps with the fill
disabled, and at width 10 every wrapped line of the background line spans
the full 10 columns. -/
theorem c9_uniform_bg_fill_threshold_witness :
    wrapLine exBgLine 501 = wrapWithFill none 501 exBgLine ∧
    ∀ ml ∈ wrapLine exBgLine 10, spansWidth ml.spans = 10 :=
  ⟨c9_uniform_bg_fill_threshold.1 exBgLine 501 (by omega),
   c9_uniform_bg_fill_threshold.2.1 exBgLine 10 (MColor.Palette 7) (by decide)
     (by omega) (by omega) (by decide)⟩

end Mark
